import Mathlib

/-!
Verification of the relational-schema decomposition program `decompose.py`
(attribute closure, minimal cover, key finding, 3NF synthesis, BCNF
decomposition).  Python sets of attribute names are modelled as
`Finset String`; functional dependencies as a record with a `Finset` left
side and a single right attribute.  Loops that mutate local state are
modelled as structural recursions; the unbounded BCNF recursion is
modelled with explicit fuel (a `none` result means the call stack never
returns).  Places where the Python code consumes the iteration order of a
`set` (`next(iter(s))`, `list(s)`) are modelled by an explicit enumeration
function `enum : Finset String → List String` standing for that order.
-/

namespace Decompose

/-- A functional dependency in the program's internal form:
`{"left": set, "right": str}`. -/
structure FD where
  left : Finset String
  right : String
deriving DecidableEq

/-- One full scan of the FD list inside `_closure`'s `while changed` loop:
for each FD whose left side is contained in the accumulated set and whose
right attribute is missing, add the right attribute. -/
def closStep (fds : List FD) (s : Finset String) : Finset String :=
  fds.foldl (fun acc fd =>
    if fd.left ⊆ acc ∧ fd.right ∉ acc then insert fd.right acc else acc) s

/-- The `while changed` loop of `_closure`, with fuel: run scans until a
scan changes nothing.  Each changing scan adds at least one right-hand
attribute, so `fds.length + 1` scans always reach the fixed point. -/
def closureAux (fds : List FD) : Nat → Finset String → Finset String
  | 0, s => s
  | n + 1, s => if closStep fds s = s then s else closureAux fds n (closStep fds s)

/-- `_closure(attrs, fds)`: attribute closure of `attrs` under `fds`. -/
def closure (attrs : Finset String) (fds : List FD) : Finset String :=
  closureAux fds (fds.length + 1) attrs

/-- The set `{fd["right"] for fd in fds}`. -/
def rightsOf (fds : List FD) : Finset String :=
  fds.foldl (fun acc fd => insert fd.right acc) ∅

/-- A set `T` is closed under `fds` when every FD with left side inside `T`
has its right attribute in `T`. -/
def ClosedUnder (T : Finset String) (fds : List FD) : Prop :=
  ∀ fd ∈ fds, fd.left ⊆ T → fd.right ∈ T

section ClosureLemmas

lemma foldl_insert_subset (fds : List FD) :
    ∀ acc : Finset String,
      acc ⊆ fds.foldl (fun acc fd =>
        if fd.left ⊆ acc ∧ fd.right ∉ acc then insert fd.right acc else acc) acc := by
  induction fds with
  | nil => intro acc; simp
  | cons fd rest ih =>
    intro acc
    simp only [List.foldl_cons]
    refine Finset.Subset.trans ?_ (ih _)
    split
    · exact Finset.subset_insert _ _
    · exact Finset.Subset.refl _

lemma closStep_subset (fds : List FD) (s : Finset String) : s ⊆ closStep fds s :=
  foldl_insert_subset fds s

lemma closStep_subset_closed (fds : List FD) (T : Finset String)
    (hT : ClosedUnder T fds) :
    ∀ s : Finset String, s ⊆ T → closStep fds s ⊆ T := by
  unfold closStep
  induction fds with
  | nil => intro s hs; simpa using hs
  | cons fd rest ih =>
    intro s hs
    simp only [List.foldl_cons]
    have hrest : ClosedUnder T rest := by
      intro g hg; exact hT g (List.mem_cons_of_mem _ hg)
    refine ih hrest _ ?_
    split
    · next h =>
      have : fd.right ∈ T := hT fd (List.mem_cons_self _ _) (h.1.trans hs)
      exact Finset.insert_subset this hs
    · exact hs

lemma mem_rightsOf (fds : List FD) (a : String) :
    a ∈ rightsOf fds ↔ ∃ fd ∈ fds, fd.right = a := by
  unfold rightsOf
  suffices h : ∀ acc : Finset String,
      a ∈ fds.foldl (fun acc fd => insert fd.right acc) acc ↔
        a ∈ acc ∨ ∃ fd ∈ fds, fd.right = a by
    simpa using h ∅
  induction fds with
  | nil => intro acc; simp
  | cons fd rest ih =>
    intro acc
    simp only [List.foldl_cons, ih, Finset.mem_insert]
    constructor
    · rintro (⟨h | h⟩ | ⟨g, hg, rfl⟩)
      · exact Or.inr ⟨fd, List.mem_cons_self _ _, h.symm⟩
      · exact Or.inl h
      · exact Or.inr ⟨g, List.mem_cons_of_mem _ hg, rfl⟩
    · rintro (h | ⟨g, hg, rfl⟩)
      · exact Or.inl (Or.inr h)
      · rcases List.mem_cons.mp hg with rfl | hg
        · exact Or.inl (Or.inl rfl)
        · exact Or.inr ⟨g, hg, rfl⟩

lemma closStep_subset_union_rights (fds : List FD) (s : Finset String) :
    closStep fds s ⊆ s ∪ rightsOf fds := by
  have hclosed : ClosedUnder (s ∪ rightsOf fds) fds := by
    intro fd hfd _
    exact Finset.mem_union_right _ ((mem_rightsOf fds fd.right).mpr ⟨fd, hfd, rfl⟩)
  exact closStep_subset_closed fds _ hclosed s Finset.subset_union_left

lemma closureAux_subset (fds : List FD) :
    ∀ (n : Nat) (s : Finset String), s ⊆ closureAux fds n s := by
  intro n
  induction n with
  | zero => intro s; exact Finset.Subset.refl _
  | succ n ih =>
    intro s
    unfold closureAux
    split
    · exact Finset.Subset.refl _
    · exact (closStep_subset fds s).trans (ih _)

lemma closureAux_subset_closed (fds : List FD) (T : Finset String)
    (hT : ClosedUnder T fds) :
    ∀ (n : Nat) (s : Finset String), s ⊆ T → closureAux fds n s ⊆ T := by
  intro n
  induction n with
  | zero => intro s hs; exact hs
  | succ n ih =>
    intro s hs
    unfold closureAux
    split
    · exact hs
    · exact ih _ (closStep_subset_closed fds T hT s hs)

/-- With enough fuel the iteration reaches a fixed point of `closStep`. -/
lemma closureAux_fix (fds : List FD) :
    ∀ (n : Nat) (s : Finset String), (rightsOf fds \ s).card < n →
      closStep fds (closureAux fds n s) = closureAux fds n s := by
  intro n
  induction n with
  | zero => intro s h; omega
  | succ n ih =>
    intro s h
    unfold closureAux
    split
    · next heq => simp [heq]
    · next hne =>
      refine ih (closStep fds s) ?_
      have hsub : s ⊆ closStep fds s := closStep_subset fds s
      have hex : ∃ x, x ∈ closStep fds s ∧ x ∉ s := by
        by_contra hall
        push_neg at hall
        exact hne (Finset.Subset.antisymm (fun x hx => hall x hx) hsub)
      rcases hex with ⟨x, hx₁, hx₂⟩
      have hxr : x ∈ rightsOf fds := by
        rcases Finset.mem_union.mp (closStep_subset_union_rights fds s hx₁) with h | h
        · exact absurd h hx₂
        · exact h
      have hss : rightsOf fds \ closStep fds s ⊂ rightsOf fds \ s := by
        constructor
        · intro y hy
          rcases Finset.mem_sdiff.mp hy with ⟨hy₁, hy₂⟩
          exact Finset.mem_sdiff.mpr ⟨hy₁, fun hm => hy₂ (hsub hm)⟩
        · intro hcon
          have hx : x ∈ rightsOf fds \ s := Finset.mem_sdiff.mpr ⟨hxr, hx₂⟩
          have := hcon hx
          exact (Finset.mem_sdiff.mp this).2 hx₁
      have := Finset.card_lt_card hss
      omega

lemma card_rightsOf_le (fds : List FD) : (rightsOf fds).card ≤ fds.length := by
  unfold rightsOf
  suffices h : ∀ acc : Finset String,
      (fds.foldl (fun acc fd => insert fd.right acc) acc).card ≤ acc.card + fds.length by
    simpa using h ∅
  induction fds with
  | nil => intro acc; simp
  | cons fd rest ih =>
    intro acc
    simp only [List.foldl_cons, List.length_cons]
    calc (rest.foldl (fun acc fd => insert fd.right acc) (insert fd.right acc)).card
        ≤ (insert fd.right acc).card + rest.length := ih _
      _ ≤ (acc.card + 1) + rest.length := by
          have := Finset.card_insert_le fd.right acc
          omega
      _ = acc.card + (rest.length + 1) := by omega

/-- The closure is a fixed point of one scan. -/
lemma closStep_closure (attrs : Finset String) (fds : List FD) :
    closStep fds (closure attrs fds) = closure attrs fds := by
  have h₁ : (rightsOf fds \ attrs).card ≤ (rightsOf fds).card :=
    Finset.card_le_card (Finset.sdiff_subset)
  have h₂ := card_rightsOf_le fds
  exact closureAux_fix fds (fds.length + 1) attrs (by omega)

lemma mem_closStep_of_left_subset (fds : List FD) :
    ∀ (s : Finset String), ∀ fd ∈ fds, fd.left ⊆ s → fd.right ∈ closStep fds s := by
  unfold closStep
  induction fds with
  | nil => intro s fd h; simp at h
  | cons g rest ih =>
    intro s fd hfd hleft
    simp only [List.foldl_cons]
    rcases List.mem_cons.mp hfd with rfl | hfd
    · -- fd is processed first; afterwards its right attribute is present and
      -- the rest of the fold only grows the set
      have hmem : fd.right ∈
          (if fd.left ⊆ s ∧ fd.right ∉ s then insert fd.right s else s) := by
        split
        · exact Finset.mem_insert_self _ _
        · next hcond =>
          rcases Classical.em (fd.right ∈ s) with h | h
          · exact h
          · exact absurd ⟨hleft, h⟩ hcond
      exact foldl_insert_subset rest _ hmem
    · refine ih _ fd hfd ?_
      refine hleft.trans ?_
      split
      · exact Finset.subset_insert _ _
      · exact Finset.Subset.refl _

/-- A fixed point of `closStep` is closed under all the FDs. -/
lemma closedUnder_of_closStep_fix (fds : List FD) (t : Finset String)
    (h : closStep fds t = t) : ClosedUnder t fds := by
  intro fd hfd hleft
  have := mem_closStep_of_left_subset fds t fd hfd hleft
  rwa [h] at this

/-- `_closure` is extensive: the result contains the input. -/
lemma closure_extensive (attrs : Finset String) (fds : List FD) :
    attrs ⊆ closure attrs fds :=
  closureAux_subset fds _ attrs

/-- `_closure` returns a set closed under every FD. -/
lemma closure_closed (attrs : Finset String) (fds : List FD) :
    ClosedUnder (closure attrs fds) fds :=
  closedUnder_of_closStep_fix fds _ (closStep_closure attrs fds)

/-- `_closure` returns the smallest closed superset: any closed superset of
the input contains the result. -/
lemma closure_minimal (attrs : Finset String) (fds : List FD)
    (T : Finset String) (hT₁ : attrs ⊆ T) (hT₂ : ClosedUnder T fds) :
    closure attrs fds ⊆ T :=
  closureAux_subset_closed fds T hT₂ _ attrs hT₁

/-- `_closure` is monotone in its attribute argument. -/
lemma closure_mono (s₁ s₂ : Finset String) (fds : List FD) (h : s₁ ⊆ s₂) :
    closure s₁ fds ⊆ closure s₂ fds :=
  closure_minimal s₁ fds _ (h.trans (closure_extensive s₂ fds)) (closure_closed s₂ fds)

/-- `_closure` is monotone in the FD list (with respect to membership). -/
lemma closure_mono_fds (s : Finset String) (fds₁ fds₂ : List FD)
    (h : ∀ fd ∈ fds₁, fd ∈ fds₂) :
    closure s fds₁ ⊆ closure s fds₂ := by
  refine closure_minimal s fds₁ _ (closure_extensive s fds₂) ?_
  intro fd hfd
  exact closure_closed s fds₂ fd (h fd hfd)

/-- With no FDs the closure is the input set. -/
lemma closure_nil (attrs : Finset String) : closure attrs [] = attrs := by
  unfold closure closureAux
  simp [closStep]

/-- The closure adds only right-hand attributes. -/
lemma closure_subset_union_rights (attrs : Finset String) (fds : List FD) :
    closure attrs fds ⊆ attrs ∪ rightsOf fds := by
  refine closure_minimal attrs fds _ Finset.subset_union_left ?_
  intro fd hfd _
  refine Finset.mem_union_right _ ((mem_rightsOf fds fd.right).mpr ⟨fd, hfd, rfl⟩)

/-- When every FD has a non-empty left side, the closure of the empty set
is empty. -/
lemma closure_empty (fds : List FD) (h : ∀ fd ∈ fds, fd.left.Nonempty) :
    closure ∅ fds = ∅ := by
  refine Finset.Subset.antisymm ?_ (closure_extensive ∅ fds)
  refine closure_minimal ∅ fds ∅ (Finset.Subset.refl _) ?_
  intro fd hfd hleft
  rcases h fd hfd with ⟨a, ha⟩
  have := hleft ha
  simp at this

/-- `_closure` is idempotent. -/
lemma closure_idem (attrs : Finset String) (fds : List FD) :
    closure (closure attrs fds) fds = closure attrs fds := by
  conv_lhs => rw [closure, closureAux]
  rw [if_pos (closStep_closure attrs fds)]

/-- Under a well-formed schema the closure of a subset of the attribute
set stays inside the attribute set. -/
lemma closure_subset_attrs (s attrs : Finset String) (fds : List FD)
    (hs : s ⊆ attrs) (hfds : ∀ fd ∈ fds, fd.right ∈ attrs) :
    closure s fds ⊆ attrs := by
  refine closure_minimal s fds attrs hs ?_
  intro fd hfd _
  exact hfds fd hfd

end ClosureLemmas

/-! ### Deterministic sorting helpers

`sorted(list(rel))` and `result.sort()` in the Python code.  We use a
hand-rolled insertion sort over a code-point comparison (Python compares
strings by Unicode code points) so that every definition reduces inside
the kernel. -/

/-- Lexicographic code-point comparison of character lists. -/
def charsLe : List Char → List Char → Bool
  | [], _ => true
  | _ :: _, [] => false
  | a :: as, b :: bs =>
    if a.toNat < b.toNat then true
    else if b.toNat < a.toNat then false
    else charsLe as bs

/-- Python's `<=` on strings: code-point lexicographic order. -/
def strLe (a b : String) : Bool := charsLe a.data b.data

lemma charsLe_total : ∀ l₁ l₂ : List Char, charsLe l₁ l₂ = true ∨ charsLe l₂ l₁ = true := by
  intro l₁
  induction l₁ with
  | nil => intro l₂; left; rfl
  | cons a as ih =>
    intro l₂
    cases l₂ with
    | nil => right; rfl
    | cons b bs =>
      unfold charsLe
      rcases Nat.lt_trichotomy a.toNat b.toNat with h | h | h
      · left; simp [h]
      · have h₁ : ¬ a.toNat < b.toNat := by omega
        have h₂ : ¬ b.toNat < a.toNat := by omega
        rcases ih bs with hc | hc
        · left; simp [h₁, h₂, hc]
        · right; simp [h₁, h₂, hc]
      · right; simp [h]

lemma char_eq_of_toNat_eq {a b : Char} (h : a.toNat = b.toNat) : a = b :=
  Char.ext (UInt32.ext h)

lemma charsLe_antisymm : ∀ l₁ l₂ : List Char,
    charsLe l₁ l₂ = true → charsLe l₂ l₁ = true → l₁ = l₂ := by
  intro l₁
  induction l₁ with
  | nil =>
    intro l₂ _ h₂
    cases l₂ with
    | nil => rfl
    | cons b bs => simp [charsLe] at h₂
  | cons a as ih =>
    intro l₂ h₁ h₂
    cases l₂ with
    | nil => simp [charsLe] at h₁
    | cons b bs =>
      unfold charsLe at h₁ h₂
      rcases Nat.lt_trichotomy a.toNat b.toNat with h | h | h
      · have : ¬ b.toNat < a.toNat := by omega
        simp [h, this] at h₂
      · have h₁' : ¬ a.toNat < b.toNat := by omega
        have h₂' : ¬ b.toNat < a.toNat := by omega
        simp [h₁', h₂'] at h₁ h₂
        rw [char_eq_of_toNat_eq h, ih bs h₁ h₂]
      · have : ¬ a.toNat < b.toNat := by omega
        simp [h, this] at h₁

lemma charsLe_trans : ∀ l₁ l₂ l₃ : List Char,
    charsLe l₁ l₂ = true → charsLe l₂ l₃ = true → charsLe l₁ l₃ = true := by
  intro l₁
  induction l₁ with
  | nil => intro l₂ l₃ _ _; rfl
  | cons a as ih =>
    intro l₂ l₃ h₁ h₂
    cases l₂ with
    | nil => simp [charsLe] at h₁
    | cons b bs =>
      cases l₃ with
      | nil => simp [charsLe] at h₂
      | cons c cs =>
        unfold charsLe at h₁ h₂ ⊢
        by_cases hab : a.toNat < b.toNat
        · by_cases hbc : b.toNat < c.toNat
          · simp [show a.toNat < c.toNat by omega]
          · by_cases hcb : c.toNat < b.toNat
            · simp [hbc, hcb] at h₂
            · have : b.toNat = c.toNat := by omega
              simp [show a.toNat < c.toNat by omega]
        · by_cases hba : b.toNat < a.toNat
          · simp [hab, hba] at h₁
          · have hab' : a.toNat = b.toNat := by omega
            simp [hab, hba] at h₁
            by_cases hbc : b.toNat < c.toNat
            · simp [show a.toNat < c.toNat by omega]
            · by_cases hcb : c.toNat < b.toNat
              · simp [hbc, hcb] at h₂
              · have hbc' : b.toNat = c.toNat := by omega
                simp [hbc, hcb] at h₂
                have h₁' : ¬ a.toNat < c.toNat := by omega
                have h₂' : ¬ c.toNat < a.toNat := by omega
                simp [h₁', h₂', ih bs cs h₁ h₂]

lemma string_data_inj {a b : String} (h : a.data = b.data) : a = b := by
  cases a; cases b; exact congrArg String.mk h

lemma strLe_total (a b : String) : strLe a b = true ∨ strLe b a = true :=
  charsLe_total a.data b.data

lemma strLe_antisymm {a b : String} (h₁ : strLe a b = true) (h₂ : strLe b a = true) :
    a = b :=
  string_data_inj (charsLe_antisymm a.data b.data h₁ h₂)

lemma strLe_trans {a b c : String} (h₁ : strLe a b = true) (h₂ : strLe b c = true) :
    strLe a c = true :=
  charsLe_trans a.data b.data c.data h₁ h₂

/-- The sorting relation: `strLe` viewed as a proposition. -/
def StrLeR (a b : String) : Prop := strLe a b = true

instance : IsAntisymm String StrLeR := ⟨fun _ _ h₁ h₂ => strLe_antisymm h₁ h₂⟩

/-- Insert a string into an already sorted list of strings. -/
def insertStr (a : String) : List String → List String
  | [] => [a]
  | b :: bs => if strLe a b then a :: b :: bs else b :: insertStr a bs

/-- Ascending insertion sort on strings, the effect of Python's
`sorted(...)` on a list of attribute names. -/
def sortStr : List String → List String
  | [] => []
  | a :: as => insertStr a (sortStr as)

lemma insertStr_perm (a : String) (l : List String) :
    List.Perm (insertStr a l) (a :: l) := by
  induction l with
  | nil => exact List.Perm.refl _
  | cons b bs ih =>
    unfold insertStr
    split
    · exact List.Perm.refl _
    · exact (List.Perm.cons b ih).trans (List.Perm.swap a b bs)

lemma sortStr_perm (l : List String) : List.Perm (sortStr l) l := by
  induction l with
  | nil => exact List.Perm.refl _
  | cons a as ih => exact (insertStr_perm a (sortStr as)).trans (List.Perm.cons a ih)

lemma insertStr_sorted (a : String) (l : List String)
    (h : l.Sorted StrLeR) : (insertStr a l).Sorted StrLeR := by
  induction l with
  | nil => simp [insertStr]
  | cons b bs ih =>
    rw [List.sorted_cons] at h
    unfold insertStr
    split
    · next hab =>
      rw [List.sorted_cons]
      refine ⟨?_, List.sorted_cons.mpr h⟩
      intro c hc
      rcases List.mem_cons.mp hc with rfl | hc
      · exact hab
      · exact strLe_trans hab (h.1 c hc)
    · next hab =>
      have hba : StrLeR b a := by
        rcases strLe_total a b with hc | hc
        · exact absurd hc hab
        · exact hc
      rw [List.sorted_cons]
      refine ⟨?_, ih h.2⟩
      intro c hc
      have hmem : c ∈ a :: bs := (insertStr_perm a bs).mem_iff.mp hc
      rcases List.mem_cons.mp hmem with rfl | hc
      · exact hba
      · exact h.1 c hc

lemma sortStr_sorted (l : List String) : (sortStr l).Sorted StrLeR := by
  induction l with
  | nil => simp [sortStr]
  | cons a as ih => exact insertStr_sorted a (sortStr as) ih

lemma sortStr_eq_of_perm {l₁ l₂ : List String} (h : List.Perm l₁ l₂) :
    sortStr l₁ = sortStr l₂ :=
  List.eq_of_perm_of_sorted
    (((sortStr_perm l₁).trans h).trans (sortStr_perm l₂).symm)
    (sortStr_sorted l₁) (sortStr_sorted l₂)

/-- `sorted(list(s))` for a Python set `s`: the ascending enumeration of a
`Finset String`.  Well defined because `sortStr` is permutation
invariant. -/
def finSort (s : Finset String) : List String :=
  Quot.liftOn s.val sortStr (fun _ _ h => sortStr_eq_of_perm h)

lemma finSort_coe (s : Finset String) : (finSort s : Multiset String) = s.val := by
  rcases s with ⟨m, nd⟩
  refine Quot.inductionOn m (fun l => ?_) nd
  intro _
  exact Quot.sound (sortStr_perm l)

lemma mem_finSort (s : Finset String) (a : String) : a ∈ finSort s ↔ a ∈ s := by
  have h := finSort_coe s
  constructor
  · intro ha
    have : a ∈ (finSort s : Multiset String) := by simpa using ha
    rw [h] at this
    exact this
  · intro ha
    have : a ∈ (s.val : Multiset String) := ha
    rw [← h] at this
    simpa using this

lemma finSort_nodup (s : Finset String) : (finSort s).Nodup := by
  have h := finSort_coe s
  have := s.nodup
  rw [← h] at this
  simpa using this

lemma finSort_toFinset (s : Finset String) : (finSort s).toFinset = s := by
  ext a
  simp [List.mem_toFinset, mem_finSort]

lemma finSort_injective : Function.Injective finSort := by
  intro s₁ s₂ h
  have := congrArg List.toFinset h
  rwa [finSort_toFinset, finSort_toFinset] at this

lemma finSort_eq_nil_iff (s : Finset String) : finSort s = [] ↔ s = ∅ := by
  constructor
  · intro h
    have := finSort_toFinset s
    rw [h] at this
    simpa using this.symm
  · intro h
    subst h
    rfl

/-- Lexicographic comparison of attribute lists, Python's `<=` on
`list[str]`. -/
def lexLe : List String → List String → Bool
  | [], _ => true
  | _ :: _, [] => false
  | a :: as, b :: bs => if a = b then lexLe as bs else strLe a b

/-- Insert into an already lexicographically sorted list of lists. -/
def insertLex (x : List String) : List (List String) → List (List String)
  | [] => [x]
  | y :: ys => if lexLe x y then x :: y :: ys else y :: insertLex x ys

/-- `result.sort()` on the final list of relations. -/
def sortLex (l : List (List String)) : List (List String) :=
  l.foldr insertLex []

lemma insertLex_perm (x : List String) (l : List (List String)) :
    List.Perm (insertLex x l) (x :: l) := by
  induction l with
  | nil => exact List.Perm.refl _
  | cons y ys ih =>
    unfold insertLex
    split
    · exact List.Perm.refl _
    · exact (List.Perm.cons y ih).trans (List.Perm.swap x y ys)

lemma sortLex_perm (l : List (List String)) : List.Perm (sortLex l) l := by
  induction l with
  | nil => exact List.Perm.refl _
  | cons x xs ih =>
    exact (insertLex_perm x (sortLex xs)).trans (List.Perm.cons x ih)

/-! ### The generic removal loop

Both `_minimal_cover` and step 3 of `solve_3nf` scan a working list with
an index, testing each element against all the *other* current elements
and popping it when the test fires.  `sift p kept rest` is that loop:
`kept` holds the already-retained prefix, `rest` the unprocessed
suffix. -/

def sift (p : α → List α → Bool) : List α → List α → List α
  | kept, [] => kept
  | kept, x :: rest =>
    if p x (kept ++ rest) then sift p kept rest else sift p (kept ++ [x]) rest

lemma sift_eq_append (p : α → List α → Bool) :
    ∀ (rest kept : List α), ∃ s, sift p kept rest = kept ++ s ∧ s.Sublist rest := by
  intro rest
  induction rest with
  | nil => intro kept; exact ⟨[], by simp [sift]⟩
  | cons x rest ih =>
    intro kept
    unfold sift
    split
    · rcases ih kept with ⟨s, hs, hsub⟩
      exact ⟨s, hs, hsub.trans (List.sublist_cons_self x rest)⟩
    · rcases ih (kept ++ [x]) with ⟨s, hs, hsub⟩
      refine ⟨x :: s, by simpa using hs, ?_⟩
      exact List.Sublist.cons₂ x hsub

lemma sift_sublist (p : α → List α → Bool) (l : List α) :
    (sift p [] l).Sublist l := by
  rcases sift_eq_append p l [] with ⟨s, hs, hsub⟩
  simpa [hs] using hsub

lemma mem_of_mem_sift (p : α → List α → Bool) :
    ∀ (rest kept : List α) (x : α), x ∈ sift p kept rest → x ∈ kept ∨ x ∈ rest := by
  intro rest kept x hx
  rcases sift_eq_append p rest kept with ⟨s, hs, hsub⟩
  rw [hs] at hx
  rcases List.mem_append.mp hx with h | h
  · exact Or.inl h
  · exact Or.inr (hsub.mem h)

/-- Splitting a list that ends in a known element. -/
lemma split_of_append_singleton {l₁ l₂ kept : List α} {x y : α}
    (h : kept ++ [y] = l₁ ++ x :: l₂) :
    (l₁ = kept ∧ x = y ∧ l₂ = []) ∨ ∃ l₂', l₂ = l₂' ++ [y] ∧ kept = l₁ ++ x :: l₂' := by
  rcases List.eq_nil_or_concat l₂ with rfl | ⟨l₂', z, rfl⟩
  · left
    have h' : kept ++ [y] = l₁ ++ [x] := by simpa using h
    have hinj := List.append_inj' h' rfl
    have hyx : y = x := by simpa using hinj.2
    exact ⟨hinj.1.symm, hyx.symm, rfl⟩
  · right
    have h' : kept ++ [y] = (l₁ ++ x :: l₂') ++ [z] := by
      rw [List.concat_eq_append] at h
      simpa [List.append_assoc] using h
    have hinj := List.append_inj' h' rfl
    have hyz : y = z := by simpa using hinj.2
    refine ⟨l₂', ?_, hinj.1⟩
    rw [List.concat_eq_append, hyz]

/-- Main property of the removal loop: when the test predicate is antitone
in its list argument (with respect to membership), every retained element
still fails the test against all the other retained elements. -/
lemma sift_split (p : α → List α → Bool)
    (hp : ∀ (x : α) (o₁ o₂ : List α), (∀ a ∈ o₁, a ∈ o₂) →
      p x o₂ = false → p x o₁ = false) :
    ∀ (rest kept : List α),
      (∀ l₁ x l₂, kept = l₁ ++ x :: l₂ → p x (l₁ ++ l₂ ++ rest) = false) →
      ∀ l₁ x l₂, sift p kept rest = l₁ ++ x :: l₂ → p x (l₁ ++ l₂) = false := by
  intro rest
  induction rest with
  | nil =>
    intro kept hkept l₁ x l₂ hs
    have := hkept l₁ x l₂ (by simpa [sift] using hs)
    simpa using this
  | cons y rest ih =>
    intro kept hkept l₁ x l₂ hs
    unfold sift at hs
    split at hs
    · next hy =>
      refine ih kept ?_ l₁ x l₂ hs
      intro m₁ z m₂ hm
      refine hp z _ _ ?_ (hkept m₁ z m₂ hm)
      intro a ha
      simp only [List.mem_append, List.mem_cons] at ha ⊢
      tauto
    · next hy =>
      have hyf : p y (kept ++ rest) = false := Bool.eq_false_iff.mpr hy
      refine ih (kept ++ [y]) ?_ l₁ x l₂ hs
      intro m₁ z m₂ hm
      rcases split_of_append_singleton hm with ⟨rfl, rfl, rfl⟩ | ⟨m₂', rfl, hk⟩
      · refine hp z _ _ ?_ hyf
        intro a ha
        simp only [List.mem_append] at ha ⊢
        tauto
      · refine hp z _ _ ?_ (hkept m₁ z m₂' hk)
        intro a ha
        simp only [List.mem_append, List.mem_cons] at ha ⊢
        tauto

/-- Pairs of distinct retained elements fail the test against each
other. -/
lemma sift_pairwise (p : α → List α → Bool)
    (hp : ∀ (x : α) (o₁ o₂ : List α), (∀ a ∈ o₁, a ∈ o₂) →
      p x o₂ = false → p x o₁ = false)
    (l : List α) {l₁ l₂ : List α} {x : α}
    (h : sift p [] l = l₁ ++ x :: l₂) : p x (l₁ ++ l₂) = false := by
  refine sift_split p hp l [] ?_ l₁ x l₂ h
  intro m₁ z m₂ hm
  exact absurd hm (by simp)

/-- If the test fires on any element already present among the others, the
retained list has no duplicates. -/
lemma sift_nodup (p : α → List α → Bool)
    (href : ∀ (x : α) (o : List α), x ∈ o → p x o = true) :
    ∀ (rest kept : List α), kept.Nodup → (sift p kept rest).Nodup := by
  intro rest
  induction rest with
  | nil => intro kept h; simpa [sift] using h
  | cons x rest ih =>
    intro kept hkept
    unfold sift
    split
    · exact ih kept hkept
    · next hx =>
      refine ih (kept ++ [x]) ?_
      have hxnot : x ∉ kept ++ rest := by
        intro hmem
        rw [href x _ hmem] at hx
        exact hx rfl
      have hxk : x ∉ kept := fun h => hxnot (List.mem_append.mpr (Or.inl h))
      have : (x :: kept).Nodup := List.nodup_cons.mpr ⟨hxk, hkept⟩
      exact ((List.perm_append_singleton x kept).nodup_iff).mpr this

/-! ### The program's operations -/

/-- The redundancy test of `_minimal_cover`: an FD is dropped when its
right attribute is already implied by its left side using the other FDs
of the current working list. -/
def coverP (fd : FD) (others : List FD) : Bool :=
  decide (fd.right ∈ closure fd.left others)

/-- `_minimal_cover(fds)`: remove redundant FDs with an index loop over a
mutable working list. -/
def minimal_cover (fds : List FD) : List FD :=
  sift coverP [] fds

/-- The enumeration order of a Python `set` — what `iter(s)` / `list(s)`
yields.  The algorithms consume it through `next(iter(s))` (the head) and
`list(key)` (the whole list).  A real run's order is some function of this
shape; `EnumOk` says it enumerates exactly the set, without repetition. -/
def EnumOk (enum : Finset String → List String) : Prop :=
  ∀ s : Finset String, (enum s).toFinset = s ∧ (enum s).Nodup

/-- The grow loop of `_find_key`:
`while closure(key) != attrs: key.add(next(iter(attrs - closure(key))))`.
Fuel bounds the number of iterations; `attrs.card + 1` always suffices
for a well-formed schema. -/
def growKey (enum : Finset String → List String) (attrs : Finset String)
    (fds : List FD) : Nat → Finset String → Finset String
  | 0, key => key
  | n + 1, key =>
    if closure key fds = attrs then key
    else growKey enum attrs fds n
      (insert ((enum (attrs \ closure key fds)).headD "") key)

/-- The shrink loop of `_find_key`:
`for a in list(key): if closure(key - {a}) == attrs: key.remove(a)`. -/
def shrinkKey (attrs : Finset String) (fds : List FD) :
    List String → Finset String → Finset String
  | [], key => key
  | a :: rest, key =>
    if closure (key.erase a) fds = attrs then shrinkKey attrs fds rest (key.erase a)
    else shrinkKey attrs fds rest key

/-- `_find_key(attributes, fds)`: one minimal key. -/
def find_key (enum : Finset String → List String) (attributes : List String)
    (fds : List FD) : Finset String :=
  let attrs_set := attributes.toFinset
  let key0 := attrs_set \ rightsOf fds
  let key1 := if key0 = ∅ then {(enum attrs_set).headD ""} else key0
  let key2 := growKey enum attrs_set fds (attrs_set.card + 1) key1
  shrinkKey attrs_set fds (enum key2) key2

/-- A raw FD as read from the JSON boundary: `{"left": [...], "right": [...]}`. -/
structure RawFD where
  left : List String
  right : List String
deriving DecidableEq

/-- `_normalize_fds`: left becomes a set, right becomes its single
attribute (`fd["right"][0]`). -/
def normalize_fds (raw : List RawFD) : List FD :=
  raw.map (fun fd => ⟨fd.left.toFinset, fd.right.headD ""⟩)

/-- Step 1 of `solve_3nf`: one relation `left ∪ {right}` (intersected with
the attribute set) per cover FD, skipping relations already seen. -/
def relsFromCover (attrs : Finset String) : List FD → List (Finset String) →
    List (Finset String)
  | [], acc => acc
  | fd :: rest, acc =>
    if (insert fd.right fd.left) ∩ attrs ∈ acc then relsFromCover attrs rest acc
    else relsFromCover attrs rest (acc ++ [(insert fd.right fd.left) ∩ attrs])

/-- The subsumption test of step 3 of `solve_3nf`: a relation is dropped
when it is contained in one of the other current relations. -/
def subP (rel : Finset String) (others : List (Finset String)) : Bool :=
  others.any (fun r => decide (rel ⊆ r))

/-- `solve_3nf(relation_name, attributes, functional_dependencies)` (the
relation name is unused by the algorithm).  `enum` stands for the
iteration order of Python sets, consumed inside `_find_key`. -/
def solve_3nf (enum : Finset String → List String) (attributes : List String)
    (raw : List RawFD) : List (List String) :=
  let attrs_set := attributes.toFinset
  let fds := normalize_fds raw
  let cover := minimal_cover fds
  let rels := relsFromCover attrs_set cover []
  let key := find_key enum attributes cover
  let rels2 := if rels.any (fun r => decide (key ⊆ r)) then rels else rels ++ [key]
  let rels3 := sift subP [] rels2
  sortLex (rels3.map finSort)

/-- The restriction of the FD list to a sub-relation, first loop of
`_bcnf_decompose`. -/
def restrictFDs (fds : List FD) (attrs : Finset String) : List FD :=
  fds.filter (fun fd => decide (fd.left ⊆ attrs ∧ fd.right ∈ attrs))

/-- `_bcnf_decompose(attrs_set, fds)`, with fuel for the unbounded
recursion: `none` means the recursion exceeds the given depth (the Python
code would still be recursing).  The violating FD is the first restricted
FD whose left-side closure does not cover the whole sub-relation. -/
def bcnf_decompose (fds : List FD) : Nat → Finset String →
    Option (List (Finset String))
  | 0, _ => none
  | n + 1, attrs =>
    match (restrictFDs fds attrs).find?
        (fun fd => decide (¬ attrs ⊆ closure fd.left (restrictFDs fds attrs))) with
    | none => some [attrs]
    | some fd =>
      match bcnf_decompose fds n (closure fd.left (restrictFDs fds attrs) ∩ attrs),
            bcnf_decompose fds n
              (attrs \ ((closure fd.left (restrictFDs fds attrs) ∩ attrs) \ fd.left)) with
      | some res1, some res2 => some (res1 ++ res2)
      | _, _ => none

/-- The duplicate-removal loop of `solve_bcnf`. -/
def dedup (l : List (Finset String)) : List (Finset String) :=
  l.foldl (fun acc r => if r ∈ acc then acc else acc ++ [r]) []

/-- `solve_bcnf(relation_name, attributes, functional_dependencies)`, with
fuel threaded into the recursive decomposition. -/
def solve_bcnf (fuel : Nat) (attributes : List String) (raw : List RawFD) :
    Option (List (List String)) :=
  match bcnf_decompose (normalize_fds raw) fuel attributes.toFinset with
  | none => none
  | some rels => some (sortLex ((dedup rels).map finSort))

/-- Union of a list of relations. -/
def unionF (l : List (Finset String)) : Finset String :=
  l.foldr (· ∪ ·) ∅

/-- Union of a list of output relations (attribute lists). -/
def unionL (l : List (List String)) : Finset String :=
  l.foldr (fun r acc => r.toFinset ∪ acc) ∅

/-- Well-formedness of the boundary input, exactly what `_validate_input`
accepts: non-empty attribute list, FDs with non-empty left side, exactly
one right attribute, and every referenced attribute known. -/
def WFInput (attributes : List String) (raw : List RawFD) : Prop :=
  attributes ≠ [] ∧ ∀ fd ∈ raw, fd.left ≠ [] ∧ fd.right.length = 1 ∧
    (∀ a ∈ fd.left, a ∈ attributes) ∧ (∀ a ∈ fd.right, a ∈ attributes)

/-- Well-formedness of an internal FD list against an attribute set. -/
def WFFds (attrs : Finset String) (fds : List FD) : Prop :=
  ∀ fd ∈ fds, fd.left.Nonempty ∧ fd.left ⊆ attrs ∧ fd.right ∈ attrs

instance (attributes : List String) (raw : List RawFD) :
    Decidable (WFInput attributes raw) := by
  unfold WFInput; infer_instance

instance (attrs : Finset String) (fds : List FD) : Decidable (WFFds attrs fds) := by
  unfold WFFds; infer_instance

/-! ### Minimal-cover lemmas -/

lemma coverP_antitone (fd : FD) (o₁ o₂ : List FD) (h : ∀ g ∈ o₁, g ∈ o₂)
    (hf : coverP fd o₂ = false) : coverP fd o₁ = false := by
  unfold coverP at hf ⊢
  rw [decide_eq_false_iff_not] at hf ⊢
  intro hmem
  exact hf (closure_mono_fds fd.left o₁ o₂ h hmem)

lemma minimal_cover_sublist (fds : List FD) : (minimal_cover fds).Sublist fds :=
  sift_sublist coverP fds

lemma mem_minimal_cover (fds : List FD) (fd : FD) (h : fd ∈ minimal_cover fds) :
    fd ∈ fds :=
  (minimal_cover_sublist fds).mem h

lemma minimal_cover_nonredundant (fds : List FD) {l₁ l₂ : List FD} {fd : FD}
    (h : minimal_cover fds = l₁ ++ fd :: l₂) :
    fd.right ∉ closure fd.left (l₁ ++ l₂) := by
  have := sift_pairwise coverP coverP_antitone fds h
  unfold coverP at this
  rwa [decide_eq_false_iff_not] at this

/-! ### Key-finder lemmas -/

lemma headD_mem_of_enumOk {enum : Finset String → List String} (henum : EnumOk enum)
    {s : Finset String} (hs : s.Nonempty) : (enum s).headD "" ∈ s := by
  have htf := (henum s).1
  cases hl : enum s with
  | nil =>
    rw [hl] at htf
    simp at htf
    rcases hs with ⟨a, ha⟩
    rw [← htf] at ha
    simp at ha
  | cons a l =>
    have : a ∈ enum s := by rw [hl]; exact List.mem_cons_self _ _
    have := htf ▸ List.mem_toFinset.mpr this
    simpa [hl] using this

lemma growKey_spec {enum : Finset String → List String} (henum : EnumOk enum)
    (attrs : Finset String) (fds : List FD)
    (hr : ∀ fd ∈ fds, fd.right ∈ attrs) :
    ∀ (n : Nat) (key : Finset String), key ⊆ attrs → attrs.card < n + key.card →
      growKey enum attrs fds n key ⊆ attrs ∧
      closure (growKey enum attrs fds n key) fds = attrs := by
  intro n
  induction n with
  | zero =>
    intro key hkey hcard
    have := Finset.card_le_card hkey
    omega
  | succ n ih =>
    intro key hkey hcard
    unfold growKey
    split
    · next heq => exact ⟨hkey, heq⟩
    · next hne =>
      have hsub : closure key fds ⊆ attrs := closure_subset_attrs key attrs fds hkey hr
      have hnonempty : (attrs \ closure key fds).Nonempty := by
        rw [Finset.sdiff_nonempty]
        intro hcon
        exact hne (Finset.Subset.antisymm hsub hcon)
      have hpick := headD_mem_of_enumOk henum hnonempty
      rcases Finset.mem_sdiff.mp hpick with ⟨hpa, hpc⟩
      have hpk : (enum (attrs \ closure key fds)).headD "" ∉ key :=
        fun h => hpc (closure_extensive key fds h)
      refine ih _ (Finset.insert_subset hpa hkey) ?_
      rw [Finset.card_insert_of_not_mem hpk]
      omega

lemma shrinkKey_spec (attrs : Finset String) (fds : List FD)
    (hr : ∀ fd ∈ fds, fd.right ∈ attrs) :
    ∀ (l : List String) (key : Finset String), key ⊆ attrs →
      closure key fds = attrs →
      (shrinkKey attrs fds l key ⊆ key ∧
        closure (shrinkKey attrs fds l key) fds = attrs) ∧
      (∀ a ∈ l, a ∈ shrinkKey attrs fds l key →
        closure ((shrinkKey attrs fds l key).erase a) fds ≠ attrs) := by
  intro l
  induction l with
  | nil =>
    intro key hkey hcl
    exact ⟨⟨Finset.Subset.refl _, hcl⟩, by simp⟩
  | cons a rest ih =>
    intro key hkey hcl
    unfold shrinkKey
    split
    · next htest =>
      rcases ih (key.erase a) ((Finset.erase_subset a key).trans hkey) htest with
        ⟨⟨hsub, hcl'⟩, hmin⟩
      refine ⟨⟨hsub.trans (Finset.erase_subset a key), hcl'⟩, ?_⟩
      intro b hb hbmem
      rcases List.mem_cons.mp hb with rfl | hb
      · exact absurd (hsub hbmem) (Finset.not_mem_erase b key)
      · exact hmin b hb hbmem
    · next htest =>
      rcases ih key hkey hcl with ⟨⟨hsub, hcl'⟩, hmin⟩
      refine ⟨⟨hsub, hcl'⟩, ?_⟩
      intro b hb hbmem
      rcases List.mem_cons.mp hb with rfl | hb
      · intro hcon
        have h₁ : (shrinkKey attrs fds rest key).erase b ⊆ key.erase b :=
          Finset.erase_subset_erase b hsub
        have h₂ : closure ((shrinkKey attrs fds rest key).erase b) fds ⊆
            closure (key.erase b) fds := closure_mono _ _ fds h₁
        have h₃ : closure (key.erase b) fds ⊆ attrs :=
          closure_subset_attrs _ attrs fds ((Finset.erase_subset b key).trans hkey) hr
        rw [hcon] at h₂
        exact htest (Finset.Subset.antisymm h₃ h₂)
      · exact hmin b hb hbmem

lemma toFinset_nonempty_of_ne_nil {l : List String} (h : l ≠ []) :
    l.toFinset.Nonempty := by
  cases l with
  | nil => exact absurd rfl h
  | cons a as => exact ⟨a, by simp⟩

lemma find_key_spec {enum : Finset String → List String} (henum : EnumOk enum)
    (attributes : List String) (fds : List FD) (hne : attributes ≠ [])
    (hr : ∀ fd ∈ fds, fd.right ∈ attributes.toFinset) :
    find_key enum attributes fds ⊆ attributes.toFinset ∧
    closure (find_key enum attributes fds) fds = attributes.toFinset ∧
    (∀ a ∈ find_key enum attributes fds,
      closure ((find_key enum attributes fds).erase a) fds ≠ attributes.toFinset) := by
  have hattrs : attributes.toFinset.Nonempty := toFinset_nonempty_of_ne_nil hne
  set attrs := attributes.toFinset with hA
  set key1 := (if attrs \ rightsOf fds = ∅ then ({(enum attrs).headD ""} : Finset String)
    else attrs \ rightsOf fds) with hk1
  set key2 := growKey enum attrs fds (attrs.card + 1) key1 with hk2
  have hfk : find_key enum attributes fds = shrinkKey attrs fds (enum key2) key2 := rfl
  have hkey1 : key1 ⊆ attrs := by
    rw [hk1]
    split
    · next =>
      exact Finset.singleton_subset_iff.mpr (headD_mem_of_enumOk henum hattrs)
    · exact Finset.sdiff_subset
  have hgrow := growKey_spec henum attrs fds hr (attrs.card + 1) key1 hkey1 (by omega)
  rw [← hk2] at hgrow
  have hshrink := shrinkKey_spec attrs fds hr (enum key2) key2 hgrow.1 hgrow.2
  rw [hfk]
  refine ⟨(hshrink.1.1).trans hgrow.1, hshrink.1.2, ?_⟩
  intro a ha
  refine hshrink.2 a ?_ ha
  have hk : a ∈ key2 := hshrink.1.1 ha
  rw [← (henum key2).1] at hk
  exact List.mem_toFinset.mp hk

lemma find_key_nonempty {enum : Finset String → List String} (henum : EnumOk enum)
    (attributes : List String) (fds : List FD) (hne : attributes ≠ [])
    (hl : ∀ fd ∈ fds, fd.left.Nonempty)
    (hr : ∀ fd ∈ fds, fd.right ∈ attributes.toFinset) :
    (find_key enum attributes fds).Nonempty := by
  rcases find_key_spec henum attributes fds hne hr with ⟨_, hcl, _⟩
  rw [Finset.nonempty_iff_ne_empty]
  intro hcon
  rw [hcon, closure_empty fds hl] at hcl
  rcases toFinset_nonempty_of_ne_nil hne with ⟨a, ha⟩
  rw [← hcl] at ha
  simp at ha

lemma mem_find_key_of_not_right {enum : Finset String → List String}
    (henum : EnumOk enum) (attributes : List String) (fds : List FD)
    (hne : attributes ≠ []) (hr : ∀ fd ∈ fds, fd.right ∈ attributes.toFinset)
    (a : String) (ha : a ∈ attributes.toFinset) (hnr : a ∉ rightsOf fds) :
    a ∈ find_key enum attributes fds := by
  rcases find_key_spec henum attributes fds hne hr with ⟨_, hcl, _⟩
  have : a ∈ closure (find_key enum attributes fds) fds := hcl.symm ▸ ha
  rcases Finset.mem_union.mp (closure_subset_union_rights _ fds this) with h | h
  · exact h
  · exact absurd h hnr

/-! ### Union lemmas -/

lemma mem_unionF (l : List (Finset String)) (a : String) :
    a ∈ unionF l ↔ ∃ r ∈ l, a ∈ r := by
  induction l with
  | nil => simp [unionF]
  | cons r rest ih =>
    unfold unionF at ih ⊢
    simp [ih]

lemma unionF_congr {l₁ l₂ : List (Finset String)} (h : ∀ r, r ∈ l₁ ↔ r ∈ l₂) :
    unionF l₁ = unionF l₂ := by
  ext a
  rw [mem_unionF, mem_unionF]
  constructor
  · rintro ⟨r, hr, ha⟩; exact ⟨r, (h r).mp hr, ha⟩
  · rintro ⟨r, hr, ha⟩; exact ⟨r, (h r).mpr hr, ha⟩

lemma unionF_append (l₁ l₂ : List (Finset String)) :
    unionF (l₁ ++ l₂) = unionF l₁ ∪ unionF l₂ := by
  ext a
  simp only [mem_unionF, List.mem_append, Finset.mem_union]
  constructor
  · rintro ⟨r, h | h, ha⟩
    · exact Or.inl ⟨r, h, ha⟩
    · exact Or.inr ⟨r, h, ha⟩
  · rintro (⟨r, h, ha⟩ | ⟨r, h, ha⟩)
    · exact ⟨r, Or.inl h, ha⟩
    · exact ⟨r, Or.inr h, ha⟩

lemma mem_unionL (l : List (List String)) (a : String) :
    a ∈ unionL l ↔ ∃ r ∈ l, a ∈ r := by
  induction l with
  | nil => simp [unionL]
  | cons r rest ih =>
    unfold unionL at ih ⊢
    simp [ih]

lemma unionL_map_finSort (l : List (Finset String)) :
    unionL (l.map finSort) = unionF l := by
  ext a
  rw [mem_unionL, mem_unionF]
  constructor
  · rintro ⟨r, hr, ha⟩
    rcases List.mem_map.mp hr with ⟨s, hs, rfl⟩
    exact ⟨s, hs, (mem_finSort s a).mp ha⟩
  · rintro ⟨s, hs, ha⟩
    exact ⟨finSort s, List.mem_map.mpr ⟨s, hs, rfl⟩, (mem_finSort s a).mpr ha⟩

lemma unionL_sortLex (l : List (List String)) : unionL (sortLex l) = unionL l := by
  ext a
  rw [mem_unionL, mem_unionL]
  constructor
  · rintro ⟨r, hr, ha⟩; exact ⟨r, (sortLex_perm l).mem_iff.mp hr, ha⟩
  · rintro ⟨r, hr, ha⟩; exact ⟨r, (sortLex_perm l).mem_iff.mpr hr, ha⟩

/-! ### Step-1 relations of `solve_3nf` -/

lemma mem_relsFromCover (attrs : Finset String) :
    ∀ (l : List FD) (acc : List (Finset String)) (r : Finset String),
      r ∈ relsFromCover attrs l acc ↔
        r ∈ acc ∨ ∃ fd ∈ l, r = (insert fd.right fd.left) ∩ attrs := by
  intro l
  induction l with
  | nil => intro acc r; simp [relsFromCover]
  | cons fd rest ih =>
    intro acc r
    unfold relsFromCover
    split
    · next hmem =>
      rw [ih]
      constructor
      · rintro (h | ⟨g, hg, rfl⟩)
        · exact Or.inl h
        · exact Or.inr ⟨g, List.mem_cons_of_mem _ hg, rfl⟩
      · rintro (h | ⟨g, hg, rfl⟩)
        · exact Or.inl h
        · rcases List.mem_cons.mp hg with rfl | hg
          · exact Or.inl hmem
          · exact Or.inr ⟨g, hg, rfl⟩
    · next hmem =>
      rw [ih]
      constructor
      · rintro (h | ⟨g, hg, rfl⟩)
        · rcases List.mem_append.mp h with h | h
          · exact Or.inl h
          · refine Or.inr ⟨fd, List.mem_cons_self _ _, ?_⟩
            simpa using h
        · exact Or.inr ⟨g, List.mem_cons_of_mem _ hg, rfl⟩
      · rintro (h | ⟨g, hg, rfl⟩)
        · exact Or.inl (List.mem_append.mpr (Or.inl h))
        · rcases List.mem_cons.mp hg with rfl | hg
          · exact Or.inl (List.mem_append.mpr (Or.inr (by simp)))
          · exact Or.inr ⟨g, hg, rfl⟩

/-! ### The subsumption sweep -/

lemma subP_antitone (rel : Finset String) (o₁ o₂ : List (Finset String))
    (h : ∀ r ∈ o₁, r ∈ o₂) (hf : subP rel o₂ = false) : subP rel o₁ = false := by
  unfold subP at hf ⊢
  rw [List.any_eq_false] at hf ⊢
  intro r hr
  exact hf r (h r hr)

lemma subP_refl (rel : Finset String) (o : List (Finset String)) (h : rel ∈ o) :
    subP rel o = true := by
  unfold subP
  rw [List.any_eq_true]
  exact ⟨rel, h, by simp⟩

lemma sift_subP_union :
    ∀ (rest kept : List (Finset String)),
      unionF (sift subP kept rest) = unionF (kept ++ rest) := by
  intro rest
  induction rest with
  | nil => intro kept; simp [sift]
  | cons x rest ih =>
    intro kept
    unfold sift
    split
    · next hx =>
      rw [ih kept]
      unfold subP at hx
      rcases List.any_eq_true.mp hx with ⟨r, hr, hsub⟩
      rw [decide_eq_true_iff] at hsub
      ext a
      rw [mem_unionF, mem_unionF]
      constructor
      · rintro ⟨s, hs, ha⟩
        rcases List.mem_append.mp hs with h | h
        · exact ⟨s, List.mem_append.mpr (Or.inl h), ha⟩
        · exact ⟨s, List.mem_append.mpr (Or.inr (List.mem_cons_of_mem _ h)), ha⟩
      · rintro ⟨s, hs, ha⟩
        rcases List.mem_append.mp hs with h | h
        · exact ⟨s, List.mem_append.mpr (Or.inl h), ha⟩
        · rcases List.mem_cons.mp h with rfl | h
          · exact ⟨r, hr, hsub ha⟩
          · exact ⟨s, List.mem_append.mpr (Or.inr h), ha⟩
    · next hx =>
      rw [ih (kept ++ [x])]
      refine unionF_congr ?_
      intro r
      simp only [List.mem_append, List.mem_cons, List.mem_singleton]
      tauto

/-! ### BCNF decomposition invariants -/

lemma bcnf_decompose_union (fds : List FD) :
    ∀ (n : Nat) (attrs : Finset String) (out : List (Finset String)),
      bcnf_decompose fds n attrs = some out → unionF out = attrs := by
  intro n
  induction n with
  | zero => intro attrs out h; simp [bcnf_decompose] at h
  | succ n ih =>
    intro attrs out h
    unfold bcnf_decompose at h
    split at h
    · next =>
      rcases Option.some.inj h with rfl
      simp [unionF]
    · next fd hfind =>
      split at h
      · next res1 res2 h₁ h₂ =>
        rcases Option.some.inj h with rfl
        rw [unionF_append, ih _ _ h₁, ih _ _ h₂]
        ext a
        simp only [Finset.mem_union, Finset.mem_inter, Finset.mem_sdiff]
        constructor
        · rintro (⟨_, ha⟩ | ⟨ha, _⟩) <;> exact ha
        · intro ha
          by_cases hx : a ∈ closure fd.left (restrictFDs fds attrs)
          · exact Or.inl ⟨hx, ha⟩
          · refine Or.inr ⟨ha, ?_⟩
            intro hcon
            exact hx hcon.1.1
      · next => exact absurd h (by simp)

lemma bcnf_decompose_bcnf (fds : List FD) :
    ∀ (n : Nat) (attrs : Finset String) (out : List (Finset String)),
      bcnf_decompose fds n attrs = some out →
      ∀ R ∈ out, ∀ fd ∈ restrictFDs fds R, R ⊆ closure fd.left (restrictFDs fds R) := by
  intro n
  induction n with
  | zero => intro attrs out h; simp [bcnf_decompose] at h
  | succ n ih =>
    intro attrs out h
    unfold bcnf_decompose at h
    split at h
    · next hfind =>
      rcases Option.some.inj h with rfl
      intro R hR
      rcases List.mem_singleton.mp hR with rfl
      intro fd hfd
      have := List.find?_eq_none.mp hfind fd hfd
      rw [decide_eq_true_iff] at this
      exact Classical.not_not.mp this
    · next fd hfind =>
      split at h
      · next res1 res2 h₁ h₂ =>
        rcases Option.some.inj h with rfl
        intro R hR
        rcases List.mem_append.mp hR with hR | hR
        · exact ih _ _ h₁ R hR
        · exact ih _ _ h₂ R hR
      · next => exact absurd h (by simp)

/-! ### Deduplication in `solve_bcnf` -/

lemma mem_dedup_aux :
    ∀ (l acc : List (Finset String)) (r : Finset String),
      r ∈ l.foldl (fun acc r => if r ∈ acc then acc else acc ++ [r]) acc ↔
        r ∈ acc ∨ r ∈ l := by
  intro l
  induction l with
  | nil => intro acc r; simp
  | cons x rest ih =>
    intro acc r
    simp only [List.foldl_cons]
    split
    · next hx =>
      rw [ih]
      constructor
      · rintro (h | h)
        · exact Or.inl h
        · exact Or.inr (List.mem_cons_of_mem _ h)
      · rintro (h | h)
        · exact Or.inl h
        · rcases List.mem_cons.mp h with rfl | h
          · exact Or.inl hx
          · exact Or.inr h
    · next hx =>
      rw [ih]
      simp only [List.mem_append, List.mem_singleton, List.mem_cons]
      tauto

lemma mem_dedup (l : List (Finset String)) (r : Finset String) :
    r ∈ dedup l ↔ r ∈ l := by
  unfold dedup
  rw [mem_dedup_aux]
  simp

lemma dedup_nodup_aux :
    ∀ (l acc : List (Finset String)), acc.Nodup →
      (l.foldl (fun acc r => if r ∈ acc then acc else acc ++ [r]) acc).Nodup := by
  intro l
  induction l with
  | nil => intro acc h; simpa
  | cons x rest ih =>
    intro acc h
    simp only [List.foldl_cons]
    split
    · exact ih acc h
    · next hx =>
      refine ih _ ?_
      have : (x :: acc).Nodup := List.nodup_cons.mpr ⟨hx, h⟩
      exact ((List.perm_append_singleton x acc).nodup_iff).mpr this

lemma dedup_nodup (l : List (Finset String)) : (dedup l).Nodup :=
  dedup_nodup_aux l [] List.nodup_nil

/-! ### Well-formedness transport through normalization -/

lemma normalize_WF (attributes : List String) (raw : List RawFD)
    (hWF : WFInput attributes raw) :
    WFFds attributes.toFinset (normalize_fds raw) := by
  intro fd hfd
  rcases List.mem_map.mp hfd with ⟨g, hg, rfl⟩
  rcases hWF.2 g hg with ⟨hl, hlen, hlmem, hrmem⟩
  refine ⟨?_, ?_, ?_⟩
  · rcases toFinset_nonempty_of_ne_nil hl with ⟨a, ha⟩
    exact ⟨a, ha⟩
  · intro a ha
    exact List.mem_toFinset.mpr (hlmem a (List.mem_toFinset.mp ha))
  · cases hr : g.right with
    | nil => rw [hr] at hlen; simp at hlen
    | cons b bs =>
      have : b ∈ g.right := by rw [hr]; exact List.mem_cons_self _ _
      have := hrmem b this
      simpa [hr] using List.mem_toFinset.mpr this

/-! ### Main `solve_3nf` lemmas -/

lemma solve_3nf_main {enum : Finset String → List String} (henum : EnumOk enum)
    (attributes : List String) (raw : List RawFD) (hWF : WFInput attributes raw) :
    unionL (solve_3nf enum attributes raw) = attributes.toFinset ∧
    solve_3nf enum attributes raw ≠ [] ∧
    (∀ l ∈ solve_3nf enum attributes raw, l ≠ []) := by
  have hne : attributes ≠ [] := hWF.1
  have hWFf := normalize_WF attributes raw hWF
  set attrs := attributes.toFinset with hA
  set fds := normalize_fds raw with hF
  set cover := minimal_cover fds with hC
  have hcovWF : WFFds attrs cover := fun fd hfd => hWFf fd (mem_minimal_cover fds fd hfd)
  have hcovR : ∀ fd ∈ cover, fd.right ∈ attrs := fun fd hfd => (hcovWF fd hfd).2.2
  have hcovL : ∀ fd ∈ cover, fd.left.Nonempty := fun fd hfd => (hcovWF fd hfd).1
  set rels := relsFromCover attrs cover [] with hR
  set key := find_key enum attributes cover with hK
  set rels2 := (if rels.any (fun r => decide (key ⊆ r)) then rels else rels ++ [key])
    with hR2
  set rels3 := sift subP [] rels2 with hR3
  have heq : solve_3nf enum attributes raw = sortLex (rels3.map finSort) := rfl
  -- membership of rels
  have hmemrels : ∀ r ∈ rels, ∃ fd ∈ cover, r = (insert fd.right fd.left) ∩ attrs := by
    intro r hr
    rcases (mem_relsFromCover attrs cover [] r).mp hr with h | h
    · simp at h
    · exact h
  have hrels2sub : ∀ r ∈ rels2, r ⊆ attrs := by
    intro r hr
    rw [hR2] at hr
    have hkeysub : key ⊆ attrs := (find_key_spec henum attributes cover hne hcovR).1
    split at hr
    · rcases hmemrels r hr with ⟨fd, _, rfl⟩
      exact Finset.inter_subset_right
    · rcases List.mem_append.mp hr with hr | hr
      · rcases hmemrels r hr with ⟨fd, _, rfl⟩
        exact Finset.inter_subset_right
      · rcases List.mem_singleton.mp hr with rfl
        exact hkeysub
  have hrels2cov : ∀ a ∈ attrs, ∃ r ∈ rels2, a ∈ r := by
    intro a ha
    by_cases har : a ∈ rightsOf cover
    · rcases (mem_rightsOf cover a).mp har with ⟨fd, hfd, rfl⟩
      refine ⟨(insert fd.right fd.left) ∩ attrs,
        ?_, Finset.mem_inter.mpr ⟨Finset.mem_insert_self _ _, ha⟩⟩
      have hr : (insert fd.right fd.left) ∩ attrs ∈ rels :=
        (mem_relsFromCover attrs cover [] _).mpr (Or.inr ⟨fd, hfd, rfl⟩)
      rw [hR2]
      split
      · exact hr
      · exact List.mem_append.mpr (Or.inl hr)
    · have hak : a ∈ key :=
        mem_find_key_of_not_right henum attributes cover hne hcovR a ha har
      rw [hR2]
      split
      · next hany =>
        rcases List.any_eq_true.mp hany with ⟨r, hr, hsub⟩
        rw [decide_eq_true_iff] at hsub
        exact ⟨r, hr, hsub hak⟩
      · exact ⟨key, List.mem_append.mpr (Or.inr (by simp)), hak⟩
  have hunion2 : unionF rels2 = attrs := by
    ext a
    rw [mem_unionF]
    constructor
    · rintro ⟨r, hr, ha⟩
      exact hrels2sub r hr ha
    · intro ha
      exact hrels2cov a ha
  have hunion3 : unionF rels3 = attrs := by
    rw [hR3, sift_subP_union rels2 []]
    simpa using hunion2
  have hunion : unionL (solve_3nf enum attributes raw) = attrs := by
    rw [heq, unionL_sortLex, unionL_map_finSort, hunion3]
  refine ⟨hunion, ?_, ?_⟩
  · intro hcon
    rcases toFinset_nonempty_of_ne_nil hne with ⟨a, ha⟩
    rw [hcon] at hunion
    have : a ∈ unionL ([] : List (List String)) := by
      rw [hunion, hA]; exact ha
    simp [unionL] at this
  · intro l hl
    rw [heq] at hl
    have : l ∈ rels3.map finSort := (sortLex_perm _).mem_iff.mp hl
    rcases List.mem_map.mp this with ⟨R, hR', rfl⟩
    have hR2mem : R ∈ rels2 := by
      rcases mem_of_mem_sift subP rels2 [] R hR' with h | h
      · simp at h
      · exact h
    have hRne : R.Nonempty := by
      rw [hR2] at hR2mem
      have hkey : key.Nonempty :=
        find_key_nonempty henum attributes cover hne hcovL hcovR
      split at hR2mem
      · rcases hmemrels R hR2mem with ⟨fd, hfd, rfl⟩
        exact ⟨fd.right, Finset.mem_inter.mpr
          ⟨Finset.mem_insert_self _ _, hcovR fd hfd⟩⟩
      · rcases List.mem_append.mp hR2mem with h | h
        · rcases hmemrels R h with ⟨fd, hfd, rfl⟩
          exact ⟨fd.right, Finset.mem_inter.mpr
            ⟨Finset.mem_insert_self _ _, hcovR fd hfd⟩⟩
        · rcases List.mem_singleton.mp h with rfl
          exact hkey
    intro hcon
    rw [finSort_eq_nil_iff] at hcon
    rw [hcon] at hRne
    simp at hRne

lemma solve_3nf_no_subsumption (enum : Finset String → List String)
    (attributes : List String) (raw : List RawFD) :
    (solve_3nf enum attributes raw).Nodup ∧
    ∀ r₁ ∈ solve_3nf enum attributes raw, ∀ r₂ ∈ solve_3nf enum attributes raw,
      r₁ ≠ r₂ → ¬ r₁.toFinset ⊆ r₂.toFinset := by
  set fds := normalize_fds raw with hF
  set attrs := attributes.toFinset with hA
  set cover := minimal_cover fds with hC
  set rels := relsFromCover attrs cover [] with hR
  set key := find_key enum attributes cover with hK
  set rels2 := (if rels.any (fun r => decide (key ⊆ r)) then rels else rels ++ [key])
    with hR2
  set rels3 := sift subP [] rels2 with hR3
  have heq : solve_3nf enum attributes raw = sortLex (rels3.map finSort) := rfl
  have hnodup3 : rels3.Nodup := sift_nodup subP subP_refl rels2 [] List.nodup_nil
  have hpair : ∀ R₁ ∈ rels3, ∀ R₂ ∈ rels3, R₁ ≠ R₂ → ¬ R₁ ⊆ R₂ := by
    intro R₁ h₁ R₂ h₂ hne hsub
    rcases List.append_of_mem h₁ with ⟨s, t, hst⟩
    have hfalse := sift_pairwise subP subP_antitone rels2 (hR3 ▸ hst)
    have hR₂' : R₂ ∈ s ++ t := by
      have : R₂ ∈ s ++ R₁ :: t := hst ▸ h₂
      rcases List.mem_append.mp this with h | h
      · exact List.mem_append.mpr (Or.inl h)
      · rcases List.mem_cons.mp h with rfl | h
        · exact absurd rfl hne
        · exact List.mem_append.mpr (Or.inr h)
    have := List.any_eq_false.mp hfalse R₂ hR₂'
    rw [decide_eq_true_iff] at this
    · exact this hsub
  constructor
  · rw [heq]
    refine ((sortLex_perm _).nodup_iff).mpr ?_
    exact hnodup3.map finSort_injective
  · intro r₁ h₁ r₂ h₂ hne hsub
    rw [heq] at h₁ h₂
    have h₁' := (sortLex_perm _).mem_iff.mp h₁
    have h₂' := (sortLex_perm _).mem_iff.mp h₂
    rcases List.mem_map.mp h₁' with ⟨R₁, hR₁, rfl⟩
    rcases List.mem_map.mp h₂' with ⟨R₂, hR₂, rfl⟩
    have hRne : R₁ ≠ R₂ := fun hcon => hne (hcon ▸ rfl)
    refine hpair R₁ hR₁ R₂ hR₂ hRne ?_
    rwa [finSort_toFinset, finSort_toFinset] at hsub

/-! ### `solve_bcnf` output structure -/

lemma solve_bcnf_structure (fuel : Nat) (attributes : List String)
    (raw : List RawFD) (out : List (List String))
    (h : solve_bcnf fuel attributes raw = some out) :
    ∃ rels, bcnf_decompose (normalize_fds raw) fuel attributes.toFinset = some rels ∧
      out = sortLex ((dedup rels).map finSort) := by
  unfold solve_bcnf at h
  split at h
  · exact absurd h (by simp)
  · next rels hrels =>
    exact ⟨rels, hrels, (Option.some.inj h).symm⟩

lemma solve_bcnf_mem (fuel : Nat) (attributes : List String) (raw : List RawFD)
    (out : List (List String)) (h : solve_bcnf fuel attributes raw = some out)
    (l : List String) (hl : l ∈ out) :
    ∃ rels R, bcnf_decompose (normalize_fds raw) fuel attributes.toFinset = some rels ∧
      R ∈ rels ∧ l = finSort R := by
  rcases solve_bcnf_structure fuel attributes raw out h with ⟨rels, hrels, rfl⟩
  have := (sortLex_perm _).mem_iff.mp hl
  rcases List.mem_map.mp this with ⟨R, hR, rfl⟩
  exact ⟨rels, R, hrels, (mem_dedup rels R).mp hR, rfl⟩

/-! ### Termination of the BCNF recursion for non-trivial FDs -/

lemma bcnf_decompose_isSome (fds : List FD) (hnt : ∀ fd ∈ fds, fd.right ∉ fd.left) :
    ∀ (n : Nat) (attrs : Finset String), attrs.card < n →
      (bcnf_decompose fds n attrs).isSome := by
  intro n
  induction n with
  | zero => intro attrs h; omega
  | succ n ih =>
    intro attrs h
    unfold bcnf_decompose
    split
    · simp
    · next fd hfind =>
      have hmem : fd ∈ restrictFDs fds attrs := List.mem_of_find?_eq_some hfind
      have hviol := List.find?_some hfind
      rw [decide_eq_true_iff] at hviol
      have hfilter := List.mem_filter.mp hmem
      have hfd : fd ∈ fds := hfilter.1
      have hprops : fd.left ⊆ attrs ∧ fd.right ∈ attrs := by
        have := hfilter.2
        rwa [decide_eq_true_iff] at this
      rcases Finset.not_subset.mp hviol with ⟨a, ha, hna⟩
      have hR1 : (closure fd.left (restrictFDs fds attrs) ∩ attrs).card < attrs.card := by
        refine Finset.card_lt_card ⟨Finset.inter_subset_right, ?_⟩
        intro hcon
        exact hna (Finset.mem_inter.mp (hcon ha)).1
      have hrightcl : fd.right ∈ closure fd.left (restrictFDs fds attrs) :=
        closure_closed _ _ fd hmem (closure_extensive _ _)
      have hR2 : (attrs \
          ((closure fd.left (restrictFDs fds attrs) ∩ attrs) \ fd.left)).card <
          attrs.card := by
        refine Finset.card_lt_card ⟨Finset.sdiff_subset, ?_⟩
        intro hcon
        have h1 := hcon hprops.2
        have h2 : fd.right ∈ (closure fd.left (restrictFDs fds attrs) ∩ attrs) \ fd.left :=
          Finset.mem_sdiff.mpr ⟨Finset.mem_inter.mpr ⟨hrightcl, hprops.2⟩, hnt fd hfd⟩
        exact (Finset.mem_sdiff.mp h1).2 h2
      have h1 := ih (closure fd.left (restrictFDs fds attrs) ∩ attrs) (by omega)
      have h2 := ih (attrs \
        ((closure fd.left (restrictFDs fds attrs) ∩ attrs) \ fd.left)) (by omega)
      rcases Option.isSome_iff_exists.mp h1 with ⟨r1, hr1⟩
      rcases Option.isSome_iff_exists.mp h2 with ⟨r2, hr2⟩
      rw [hr1, hr2]
      simp

/-! ### Determinism up to the attribute set -/

lemma solve_3nf_congr (enum : Finset String → List String) (a₁ a₂ : List String)
    (raw : List RawFD) (h : a₁.toFinset = a₂.toFinset) :
    solve_3nf enum a₁ raw = solve_3nf enum a₂ raw := by
  unfold solve_3nf find_key
  rw [h]

lemma solve_bcnf_congr (fuel : Nat) (a₁ a₂ : List String) (raw : List RawFD)
    (h : a₁.toFinset = a₂.toFinset) :
    solve_bcnf fuel a₁ raw = solve_bcnf fuel a₂ raw := by
  unfold solve_bcnf
  rw [h]

/-- `finSort` is a legitimate set-iteration order. -/
lemma enumOk_finSort : EnumOk finSort :=
  fun s => ⟨finSort_toFinset s, finSort_nodup s⟩

/-- The reversed ascending enumeration is also a legitimate set-iteration
order. -/
lemma enumOk_revFinSort : EnumOk (fun s => (finSort s).reverse) := by
  intro s
  constructor
  · rw [List.toFinset_reverse]
    exact finSort_toFinset s
  · exact List.nodup_reverse.mpr (finSort_nodup s)

/-- On the schema ({A,B}, [A → A]) the BCNF recursion calls itself on an
unchanged attribute set forever: no fuel makes it return. -/
lemma bcnf_nonterm : ∀ n : Nat,
    bcnf_decompose [⟨{"A"}, "A"⟩] n ({"A", "B"} : Finset String) = none := by
  intro n
  induction n with
  | zero => rfl
  | succ n ih =>
    have hstep : bcnf_decompose [⟨{"A"}, "A"⟩] (n + 1) ({"A", "B"} : Finset String) =
        match bcnf_decompose [⟨{"A"}, "A"⟩] n ({"A"} : Finset String),
              bcnf_decompose [⟨{"A"}, "A"⟩] n ({"A", "B"} : Finset String) with
        | some res1, some res2 => some (res1 ++ res2)
        | _, _ => none := rfl
    rw [hstep, ih]
    cases bcnf_decompose [⟨{"A"}, "A"⟩] n ({"A"} : Finset String) <;> rfl

/-! ## The claims -/

/-- Claim C1, counterexample.  The schema with attributes {A,B} and the
single FD A → A is well formed (non-empty left set drawn from the
attribute list, exactly one right attribute), yet the recursive BCNF
decomposition never terminates: the trivial FD A → A is flagged as a
violator (its closure {A} does not cover {A,B}), X⁺ = X, and the second
recursive call receives the unchanged attribute set.  No recursion depth
returns a result, at the `_bcnf_decompose` level or the `solve_bcnf`
level. -/
theorem C1_counterexample :
    WFFds ({"A", "B"} : Finset String) [⟨{"A"}, "A"⟩] ∧
    WFInput ["A", "B"] [⟨["A"], ["A"]⟩] ∧
    (¬ ∃ (n : Nat) (out : List (Finset String)),
      bcnf_decompose [⟨{"A"}, "A"⟩] n ({"A", "B"} : Finset String) = some out) ∧
    (¬ ∃ (n : Nat) (out : List (List String)),
      solve_bcnf n ["A", "B"] [⟨["A"], ["A"]⟩] = some out) := by
  refine ⟨by decide, by decide, ?_, ?_⟩
  · rintro ⟨n, out, h⟩
    rw [bcnf_nonterm n] at h
    exact absurd h (by simp)
  · rintro ⟨n, out, h⟩
    unfold solve_bcnf at h
    rw [show normalize_fds [⟨["A"], ["A"]⟩] = [⟨{"A"}, "A"⟩] from by decide,
        show (["A", "B"] : List String).toFinset = ({"A", "B"} : Finset String)
          from by decide, bcnf_nonterm n] at h
    exact absurd h (by simp)

/-- Claim C1, amended: for every schema whose FDs are non-trivial (no FD
has its right attribute inside its own left set), the recursive BCNF
decomposition terminates within |attrs| recursion levels, i.e. with fuel
`attrs.card + 1` it returns a result. -/
theorem C1_termination (fds : List FD) (attrs : Finset String)
    (hnt : ∀ fd ∈ fds, fd.right ∉ fd.left) :
    (bcnf_decompose fds (attrs.card + 1) attrs).isSome :=
  bcnf_decompose_isSome fds hnt (attrs.card + 1) attrs (by omega)

/-- Witness for C1: on attributes {A,B} with the FD A → B the
decomposition returns within the claimed depth. -/
theorem C1_witness :
    (bcnf_decompose [⟨{"A"}, "B"⟩]
      (({"A", "B"} : Finset String).card + 1) ({"A", "B"} : Finset String)).isSome :=
  C1_termination [⟨{"A"}, "B"⟩] {"A", "B"} (by decide)

/-- Claim C2: every relation returned by the BCNF decomposer is in BCNF —
for every input FD whose left side is contained in the relation and whose
right attribute belongs to it, the closure of that left side under the
FDs restricted to the relation covers the whole relation. -/
theorem C2_bcnf_property (fuel : Nat) (attributes : List String)
    (raw : List RawFD) (out : List (List String))
    (h : solve_bcnf fuel attributes raw = some out) :
    ∀ l ∈ out, ∀ fd ∈ normalize_fds raw,
      fd.left ⊆ l.toFinset → fd.right ∈ l.toFinset →
      l.toFinset ⊆ closure fd.left (restrictFDs (normalize_fds raw) l.toFinset) := by
  intro l hl fd hfd hleft hright
  rcases solve_bcnf_mem fuel attributes raw out h l hl with ⟨rels, R, hrels, hR, rfl⟩
  rw [finSort_toFinset] at hleft hright ⊢
  have hres : fd ∈ restrictFDs (normalize_fds raw) R :=
    List.mem_filter.mpr ⟨hfd, by rw [decide_eq_true_iff]; exact ⟨hleft, hright⟩⟩
  exact bcnf_decompose_bcnf (normalize_fds raw) fuel _ rels hrels R hR fd hres

/-- Witness for C2: on ({A,B,C}, [A → B]) the BCNF decomposer returns
[{A,B},{A,C}], and in the relation {A,B} the FD A → B has a left side
whose restricted closure covers the relation. -/
theorem C2_witness :
    (["A", "B"] : List String).toFinset ⊆
      closure ({"A"} : Finset String)
        (restrictFDs (normalize_fds [⟨["A"], ["B"]⟩])
          (["A", "B"] : List String).toFinset) :=
  C2_bcnf_property 4 ["A", "B", "C"] [⟨["A"], ["B"]⟩] [["A", "B"], ["A", "C"]]
    (by decide) ["A", "B"] (by decide) ⟨["A"].toFinset, "B"⟩ (by decide)
    (by decide) (by decide)

/-- Claim C3, counterexample.  On the well-formed schema
({A,B,C,D}, [AB → C, A → B]) the BCNF decomposition returns
[[A,B],[A,B,C],[A,D]]: the relation {A,B} is a strict subset of the
distinct relation {A,B,C} in the same final list, so the no-subsumption
property fails for `solve_bcnf` (it deduplicates equal relations but
never removes subsets). -/
theorem C3_counterexample :
    WFInput ["A", "B", "C", "D"] [⟨["A", "B"], ["C"]⟩, ⟨["A"], ["B"]⟩] ∧
    solve_bcnf 4 ["A", "B", "C", "D"] [⟨["A", "B"], ["C"]⟩, ⟨["A"], ["B"]⟩] =
      some [["A", "B"], ["A", "B", "C"], ["A", "D"]] ∧
    (["A", "B"] : List String) ≠ ["A", "B", "C"] ∧
    (["A", "B"] : List String).toFinset ⊆ (["A", "B", "C"] : List String).toFinset :=
  ⟨by decide, by decide, by decide, by decide⟩

/-- Claim C3, amended: the final list returned by `solve_3nf` is
duplicate-free and contains no relation that is a subset of another
relation of the list; the final list returned by `solve_bcnf` is
duplicate-free, but it may contain a relation that is a strict subset of
another. -/
theorem C3_no_subsumption (enum : Finset String → List String)
    (attributes : List String) (raw : List RawFD) (fuel : Nat) :
    ((solve_3nf enum attributes raw).Nodup ∧
      ∀ r₁ ∈ solve_3nf enum attributes raw, ∀ r₂ ∈ solve_3nf enum attributes raw,
        r₁ ≠ r₂ → ¬ r₁.toFinset ⊆ r₂.toFinset) ∧
    (∀ out, solve_bcnf fuel attributes raw = some out → out.Nodup) := by
  refine ⟨solve_3nf_no_subsumption enum attributes raw, ?_⟩
  intro out h
  rcases solve_bcnf_structure fuel attributes raw out h with ⟨rels, _, rfl⟩
  refine ((sortLex_perm _).nodup_iff).mpr ?_
  exact (dedup_nodup rels).map finSort_injective

/-- Witness for C3: a concrete BCNF output list, shown duplicate-free by
the amended theorem. -/
theorem C3_witness : ([["A", "B"]] : List (List String)).Nodup :=
  (C3_no_subsumption finSort ["A", "B"] [⟨["A"], ["B"]⟩] 3).2 [["A", "B"]] (by decide)

/-- Claim C4: for a well-formed schema, the union of the relations
returned by `solve_3nf` equals the original attribute set, and the same
holds for every result `solve_bcnf` returns. -/
theorem C4_attribute_preservation {enum : Finset String → List String}
    (attributes : List String) (raw : List RawFD) (henum : EnumOk enum)
    (hWF : WFInput attributes raw) :
    unionL (solve_3nf enum attributes raw) = attributes.toFinset ∧
    ∀ (fuel : Nat) (out : List (List String)),
      solve_bcnf fuel attributes raw = some out →
      unionL out = attributes.toFinset := by
  constructor
  · exact (solve_3nf_main henum attributes raw hWF).1
  · intro fuel out h
    rcases solve_bcnf_structure fuel attributes raw out h with ⟨rels, hrels, rfl⟩
    rw [unionL_sortLex, unionL_map_finSort, unionF_congr (mem_dedup rels)]
    exact bcnf_decompose_union (normalize_fds raw) fuel _ rels hrels

/-- Witness for C4: attribute preservation on the concrete schema
({A,B}, [A → B]), for both decompositions. -/
theorem C4_witness :
    unionL (solve_3nf finSort ["A", "B"] [⟨["A"], ["B"]⟩]) =
      (["A", "B"] : List String).toFinset ∧
    unionL [["A", "B"]] = (["A", "B"] : List String).toFinset :=
  ⟨(C4_attribute_preservation ["A", "B"] [⟨["A"], ["B"]⟩] enumOk_finSort
      (by decide)).1,
   (C4_attribute_preservation ["A", "B"] [⟨["A"], ["B"]⟩] enumOk_finSort
      (by decide)).2 3 [["A", "B"]] (by decide)⟩

/-- Claim C5: `_closure` returns the smallest superset of its input closed
under every FD; it is the identity on an empty FD list, and with
non-empty left sides the closure of the empty attribute set is empty
(and the function is total by construction). -/
theorem C5_closure_contract (attrs : Finset String) (fds : List FD) :
    attrs ⊆ closure attrs fds ∧
    (∀ fd ∈ fds, fd.left ⊆ closure attrs fds → fd.right ∈ closure attrs fds) ∧
    (∀ T : Finset String, attrs ⊆ T →
      (∀ fd ∈ fds, fd.left ⊆ T → fd.right ∈ T) → closure attrs fds ⊆ T) ∧
    closure attrs [] = attrs ∧
    ((∀ fd ∈ fds, fd.left.Nonempty) → closure ∅ fds = ∅) :=
  ⟨closure_extensive attrs fds, closure_closed attrs fds,
    fun T h₁ h₂ => closure_minimal attrs fds T h₁ h₂,
    closure_nil attrs, fun h => closure_empty fds h⟩

/-- Witness for C5: minimality and the empty-set clause on the concrete
FD list [A → B]. -/
theorem C5_witness :
    closure ({"A"} : Finset String) [⟨{"A"}, "B"⟩] ⊆ {"A", "B"} ∧
    closure (∅ : Finset String) [⟨{"A"}, "B"⟩] = ∅ :=
  ⟨(C5_closure_contract {"A"} [⟨{"A"}, "B"⟩]).2.2.1 {"A", "B"} (by decide) (by decide),
   (C5_closure_contract {"A"} [⟨{"A"}, "B"⟩]).2.2.2.2 (by decide)⟩

/-- Claim C6: for a well-formed schema the set returned by `_find_key` is
a minimal superkey: its closure is the full attribute set, and removing
any one of its attributes breaks that. -/
theorem C6_find_key_minimal {enum : Finset String → List String}
    (henum : EnumOk enum) (attributes : List String) (fds : List FD)
    (hne : attributes ≠ []) (hWF : WFFds attributes.toFinset fds) :
    closure (find_key enum attributes fds) fds = attributes.toFinset ∧
    ∀ a ∈ find_key enum attributes fds,
      closure ((find_key enum attributes fds).erase a) fds ≠ attributes.toFinset := by
  have hr : ∀ fd ∈ fds, fd.right ∈ attributes.toFinset := fun fd h => (hWF fd h).2.2
  rcases find_key_spec henum attributes fds hne hr with ⟨_, h₁, h₂⟩
  exact ⟨h₁, h₂⟩

/-- Witness for C6: the key found for ({A,B}, [A → B]) is a superkey. -/
theorem C6_witness :
    closure (find_key finSort ["A", "B"] [⟨{"A"}, "B"⟩]) [⟨{"A"}, "B"⟩] =
      (["A", "B"] : List String).toFinset :=
  (C6_find_key_minimal enumOk_finSort ["A", "B"] [⟨{"A"}, "B"⟩]
    (by decide) (by decide)).1

/-- Claim C7: `_minimal_cover` returns a sub-sequence of its input in
which no retained FD is redundant: splitting the result anywhere, the
middle FD's right attribute is not in the closure of its left side over
all the other retained FDs. -/
theorem C7_cover_contract (fds : List FD) :
    (minimal_cover fds).Sublist fds ∧
    ∀ (l₁ : List FD) (fd : FD) (l₂ : List FD),
      minimal_cover fds = l₁ ++ fd :: l₂ →
      fd.right ∉ closure fd.left (l₁ ++ l₂) :=
  ⟨minimal_cover_sublist fds, fun _ _ _ h => minimal_cover_nonredundant fds h⟩

/-- Witness for C7: the single FD A → B is retained and is not redundant
with respect to the empty remainder. -/
theorem C7_witness : ("B" : String) ∉ closure ({"A"} : Finset String) ([] ++ []) :=
  (C7_cover_contract [⟨{"A"}, "B"⟩]).2 [] ⟨{"A"}, "B"⟩ [] (by decide)

/-- Claim C8: `_closure` is extensive and idempotent. -/
theorem C8_closure_extensive_idempotent (S : Finset String) (F : List FD) :
    S ⊆ closure S F ∧ closure (closure S F) F = closure S F :=
  ⟨closure_extensive S F, closure_idem S F⟩

/-- Claim C9, counterexample.  The key finder's selections are
`next(iter(s))` on Python sets, i.e. the head of whatever enumeration
order the interpreter uses — not a deterministic tie-break.  Both
`finSort` and its reverse are legitimate enumerations of the same sets
(EnumOk), the schema ({A,B,C,D}, [A → B, B → A, C → D, D → C]) is well
formed, and the two orders make `solve_3nf` return different relation
lists. -/
theorem C9_counterexample :
    EnumOk finSort ∧ EnumOk (fun s => (finSort s).reverse) ∧
    WFInput ["A", "B", "C", "D"]
      [⟨["A"], ["B"]⟩, ⟨["B"], ["A"]⟩, ⟨["C"], ["D"]⟩, ⟨["D"], ["C"]⟩] ∧
    solve_3nf finSort ["A", "B", "C", "D"]
      [⟨["A"], ["B"]⟩, ⟨["B"], ["A"]⟩, ⟨["C"], ["D"]⟩, ⟨["D"], ["C"]⟩] ≠
    solve_3nf (fun s => (finSort s).reverse) ["A", "B", "C", "D"]
      [⟨["A"], ["B"]⟩, ⟨["B"], ["A"]⟩, ⟨["C"], ["D"]⟩, ⟨["D"], ["C"]⟩] := by
  refine ⟨enumOk_finSort, enumOk_revFinSort, by decide, ?_⟩
  have h₁ : solve_3nf finSort ["A", "B", "C", "D"]
      [⟨["A"], ["B"]⟩, ⟨["B"], ["A"]⟩, ⟨["C"], ["D"]⟩, ⟨["D"], ["C"]⟩] =
      [["A", "B"], ["A", "C"], ["C", "D"]] := by decide
  have h₂ : solve_3nf (fun s => (finSort s).reverse) ["A", "B", "C", "D"]
      [⟨["A"], ["B"]⟩, ⟨["B"], ["A"]⟩, ⟨["C"], ["D"]⟩, ⟨["D"], ["C"]⟩] =
      [["A", "B"], ["B", "D"], ["C", "D"]] := by decide
  rw [h₁, h₂]
  decide

/-- Claim C9, amended: `solve_bcnf` is deterministic — its output is a
function of the attribute set and the FD list alone — and `solve_3nf` is
deterministic once the set-iteration order consumed by the key finder is
fixed: equal attribute sets and equal iteration order give equal
outputs. -/
theorem C9_determinism (enum : Finset String → List String) (fuel : Nat)
    (a₁ a₂ : List String) (raw : List RawFD) (h : a₁.toFinset = a₂.toFinset) :
    solve_bcnf fuel a₁ raw = solve_bcnf fuel a₂ raw ∧
    solve_3nf enum a₁ raw = solve_3nf enum a₂ raw :=
  ⟨solve_bcnf_congr fuel a₁ a₂ raw h, solve_3nf_congr enum a₁ a₂ raw h⟩

/-- Witness for C9: two different attribute lists with the same attribute
set give identical outputs. -/
theorem C9_witness :
    solve_bcnf 3 ["A", "B"] [⟨["A"], ["B"]⟩] =
      solve_bcnf 3 ["B", "A", "B"] [⟨["A"], ["B"]⟩] ∧
    solve_3nf finSort ["A", "B"] [⟨["A"], ["B"]⟩] =
      solve_3nf finSort ["B", "A", "B"] [⟨["A"], ["B"]⟩] :=
  C9_determinism finSort 3 ["A", "B"] ["B", "A", "B"] [⟨["A"], ["B"]⟩] (by decide)

/-- Claim C10: for every well-formed schema, `solve_3nf` returns a
non-empty list of non-empty relations. -/
theorem C10_solve_3nf_nonempty {enum : Finset String → List String}
    (attributes : List String) (raw : List RawFD) (henum : EnumOk enum)
    (hWF : WFInput attributes raw) :
    solve_3nf enum attributes raw ≠ [] ∧
    ∀ l ∈ solve_3nf enum attributes raw, l ≠ [] := by
  rcases solve_3nf_main henum attributes raw hWF with ⟨_, h₁, h₂⟩
  exact ⟨h₁, h₂⟩

/-- Witness for C10: the single-attribute, zero-FD schema. -/
theorem C10_witness :
    solve_3nf finSort ["A"] ([] : List RawFD) ≠ [] ∧
    ∀ l ∈ solve_3nf finSort ["A"] ([] : List RawFD), l ≠ [] :=
  C10_solve_3nf_nonempty ["A"] [] enumOk_finSort (by decide)

end Decompose
